import Mathlib

/-!
Verification of the Shamir secret sharing solver (src/answer.js and
src/solvepolynomial.js).

Embedding conventions.  JavaScript number arithmetic is modelled as exact
arithmetic over `Nat` / `ℚ`: the sources perform plain `+ * /` on JS numbers,
whose ideal (infinitely precise) semantics these definitions follow.  The
rounding that IEEE-754 binary64 doubles apply to every JS operation is not
modelled; where a claim turns on it, the predicate `representable` below
captures which integers a binary64 double can hold at all.  Division by zero
yields `0` in `ℚ` where a JS division yields a non-finite double; the sources
raise no error in either case.  `throw` sites in the sources are modelled with
`Except`; functions whose bodies contain no `throw` are modelled as total
functions.  Console output is dropped.
-/

namespace ShamirSolver

/-- The digit alphabet of `convertToDecimal` (src/answer.js line 11). -/
def digitsStr : String := "0123456789abcdefghijklmnopqrstuvwxyz"

/-- The JS expression `digits.indexOf(ch.toLowerCase())` from `convertToDecimal`
(src/answer.js line 15); `none` models the `-1` result.  `Char.toLower` maps the
ASCII uppercase letters, matching the JS behaviour on the 0-9/a-z/A-Z alphabet
the spec admits. -/
def digitIndex (c : Char) : Option Nat :=
  digitsStr.toList.findIdx? (fun d => d = c.toLower)

/-- A character is a valid digit for `base`: it maps into the alphabet and its
value is below the base (the guard on src/answer.js line 16, negated). -/
def validDigit (c : Char) (base : Nat) : Bool :=
  match digitIndex c with
  | none => false
  | some d => decide (d < base)

/-- Error values thrown by src/answer.js: the invalid-digit error of
`convertToDecimal` (line 17) carrying the offending character and the base, and
the insufficient-points error of `solveShamirSecretSharing` (line 101) carrying
the needed and found counts. -/
inductive Err where
  | invalidDigit : Char → Nat → Err
  | insufficientPoints : Nat → Nat → Err
deriving DecidableEq

/-- Loop of `convertToDecimal` (src/answer.js lines 14-20): left-to-right
positional accumulation `result = result * base + digit`, failing on the first
character that is missing from the alphabet or whose value is `≥ base`. -/
def convGo (base : Nat) : List Char → Nat → Except Err Nat
  | [], result => .ok result
  | c :: cs, result =>
    match digitIndex c with
    | none => .error (.invalidDigit c base)
    | some d =>
      if base ≤ d then .error (.invalidDigit c base)
      else convGo base cs (result * base + d)

/-- `convertToDecimal` (src/answer.js lines 10-23).  The accumulation is the
ideal (unbounded) value of the JS expression; the binary64 rounding the real
code applies above `2 ^ 53` is not modelled — where a claim turns on it, the
`representable` predicate below carries the argument about the real program. -/
def convertToDecimal (value : String) (base : Nat) : Except Err Nat :=
  convGo base value.toList 0

/-- JS `Math.round`: round half toward positive infinity. -/
def jsRound (q : ℚ) : ℤ := Int.floor (q + 1 / 2)

/-- Inner loop of `lagrangeInterpolation` (src/answer.js lines 41-48): the
Lagrange basis value `Li(0)`, a product over all indices `j ≠ i` of
`(0 - xj) / (xi - xj)` on the selected points.  Exact rational division and
multiplication stand in for the binary64 operations of the JS code; the two
agree only while every intermediate double is exact. -/
def basisValueAt (pts : List (ℚ × ℚ)) (i : Nat) : ℚ :=
  List.foldl
    (fun acc j =>
      if i ≠ j then
        acc * ((0 - (pts.getD j (0, 0)).1) / ((pts.getD i (0, 0)).1 - (pts.getD j (0, 0)).1))
      else acc)
    1 (List.range pts.length)

/-- Outer loop of `lagrangeInterpolation` (src/answer.js lines 36-51): the sum
over the selected points of `yi * Li(0)`, again in exact arithmetic where the
JS code sums doubles. -/
def lagrangeSum (pts : List (ℚ × ℚ)) : ℚ :=
  List.foldl (fun acc i => acc + (pts.getD i (0, 0)).2 * basisValueAt pts i) 0
    (List.range pts.length)

/-- `lagrangeInterpolation` (src/answer.js lines 31-55): slice the first `k`
points, accumulate the Lagrange sum for `f(0)` and apply `Math.round`.  The
function body contains no `throw`; on a duplicate abscissa it divides by zero
(yielding `0` here where JS yields a non-finite double) and still returns a
value. -/
def lagrangeInterpolation (points : List (ℚ × ℚ)) (k : Nat) : ℤ :=
  jsRound (lagrangeSum (points.take k))

/-- One keyed entry of the input structure: a base and a digit string. -/
structure Entry where
  base : Nat
  value : String
deriving DecidableEq

/-- The test-case input structure: `keys.n`, `keys.k`, and an entry for each
numeric key present. -/
structure Input where
  n : Nat
  k : Nat
  entries : Nat → Option Entry

/-- Loop of `parseTestCase` (src/answer.js lines 67-76): walk keys `1..n` in
ascending order and, for each key present, append the pair of the key itself
(the x coordinate) and the decoded value.  The `throw` inside `convertToDecimal`
propagates as the first conversion error. -/
def parseGo (input : Input) : List Nat → List (Nat × Nat) → Except Err (List (Nat × Nat))
  | [], acc => .ok acc
  | i :: rest, acc =>
    match input.entries i with
    | none => parseGo input rest acc
    | some e =>
      match convertToDecimal e.value e.base with
      | .error err => .error err
      | .ok y => parseGo input rest (acc ++ [(i, y)])

/-- `parseTestCase` (src/answer.js lines 62-83), reduced to its points list; the
`n`, `k` and `totalPointsFound` fields are recovered from the input and the
list length. -/
def parsePoints (input : Input) : Except Err (List (Nat × Nat)) :=
  parseGo input (List.range' 1 input.n) []

/-- Coordinate pairs as the JS solver holds them: both components as numbers. -/
def toQPoints (pts : List (Nat × Nat)) : List (ℚ × ℚ) :=
  pts.map (fun p => ((p.1 : ℚ), (p.2 : ℚ)))

/-- `solveShamirSecretSharing` (src/answer.js lines 90-119), console output
dropped and the result reduced to its `secret` field: parse the points, throw
the insufficient-points error when fewer than `k` were found, otherwise return
the interpolated secret. -/
def solveShamirSecretSharing (input : Input) : Except Err ℤ :=
  match parsePoints input with
  | .error err => .error err
  | .ok pts =>
    if pts.length < input.k then
      .error (.insufficientPoints input.k pts.length)
    else
      .ok (lagrangeInterpolation (toQPoints pts) input.k)

/-- `parseValue` (src/solvepolynomial.js lines 3-5), i.e. JS
`parseInt(value, base)` on the digit strings this program feeds it: accumulate
the longest valid digit prefix left to right.  The JS `NaN` result for a string
with no valid leading digit is modelled as `0`; every theorem below restricts
to fully valid digit strings, where `parseInt` agrees with `convertToDecimal`. -/
def parseValue (base : Nat) (value : String) : Nat :=
  List.foldl (fun r c => r * base + (digitIndex c).getD 0) 0
    (value.toList.takeWhile (fun c => validDigit c base))

/-- Point-collection loop of `solvePolynomial` (src/solvepolynomial.js lines
38-46): walk keys `1..n` in order, pushing `(key, parseValue ...)` while fewer
than `k` points have been collected. -/
def collectGo (input : Input) : List Nat → List (Nat × Nat) → List (Nat × Nat)
  | [], acc => acc
  | i :: rest, acc =>
    if input.k ≤ acc.length then acc
    else
      match input.entries i with
      | none => collectGo input rest acc
      | some e => collectGo input rest (acc ++ [(i, parseValue e.base e.value)])

/-- The points collected by `solvePolynomial` before building the system. -/
def collectPoints (input : Input) : List (Nat × Nat) :=
  collectGo input (List.range' 1 input.n) []

/-- JS `Math.abs` (src/solvepolynomial.js line 12). -/
def jsAbs (q : ℚ) : ℚ := if q < 0 then -q else q

/-- Pivot search of `gaussJordan` (src/solvepolynomial.js lines 10-16): scan
the rows below `i`, remembering the row whose entry in column `i` has the
strictly largest absolute value. -/
def findMaxRow {m : Nat} (A : Matrix (Fin m) (Fin m) ℚ) (i : Fin m) : Fin m :=
  List.foldl (fun cur r => if jsAbs (A cur i) < jsAbs (A r i) then r else cur) i
    ((List.finRange m).filter (fun r => i < r))

/-- Row swap of step `i` of `gaussJordan` (src/solvepolynomial.js lines 17-18):
exchange rows `i` and `maxRow` of the matrix and of the right-hand side. -/
def gjSwap {m : Nat} (s : Matrix (Fin m) (Fin m) ℚ × (Fin m → ℚ)) (i : Fin m) :
    Matrix (Fin m) (Fin m) ℚ × (Fin m → ℚ) :=
  let mr := findMaxRow s.1 i
  (Matrix.of fun r j => if r = i then s.1 mr j else if r = mr then s.1 i j else s.1 r j,
   fun r => if r = i then s.2 mr else if r = mr then s.2 i else s.2 r)

/-- Scaling of step `i` of `gaussJordan` (src/solvepolynomial.js lines 20-22):
divide row `i` of the matrix, on columns `i` and beyond, and `b i` by the pivot
`div = A i i`, in exact rational arithmetic where the JS divides doubles.
Division by a zero pivot is the silent JS division by zero. -/
def gjScale {m : Nat} (s : Matrix (Fin m) (Fin m) ℚ × (Fin m → ℚ)) (i : Fin m) :
    Matrix (Fin m) (Fin m) ℚ × (Fin m → ℚ) :=
  (Matrix.of fun r j => if r = i ∧ i ≤ j then s.1 r j / s.1 i i else s.1 r j,
   fun r => if r = i then s.2 r / s.1 i i else s.2 r)

/-- Elimination of step `i` of `gaussJordan` (src/solvepolynomial.js lines
24-29): for every row `r ≠ i`, with `factor = A r i`, subtract `factor` times
row `i` from row `r` on columns `i` and beyond, and `factor * b i` from `b r`. -/
def gjElim {m : Nat} (s : Matrix (Fin m) (Fin m) ℚ × (Fin m → ℚ)) (i : Fin m) :
    Matrix (Fin m) (Fin m) ℚ × (Fin m → ℚ) :=
  (Matrix.of fun r j => if r ≠ i ∧ i ≤ j then s.1 r j - s.1 r i * s.1 i j else s.1 r j,
   fun r => if r ≠ i then s.2 r - s.1 r i * s.2 i else s.2 r)

/-- One iteration of the outer loop of `gaussJordan` (src/solvepolynomial.js
lines 9-30): pivot swap, then scaling, then elimination. -/
def gjStep {m : Nat} (s : Matrix (Fin m) (Fin m) ℚ × (Fin m → ℚ)) (i : Fin m) :
    Matrix (Fin m) (Fin m) ℚ × (Fin m → ℚ) :=
  gjElim (gjScale (gjSwap s i) i) i

/-- `gaussJordan` (src/solvepolynomial.js lines 7-31): run the elimination for
each column in order and return the transformed right-hand side. -/
def gaussJordan {m : Nat} (A : Matrix (Fin m) (Fin m) ℚ) (b : Fin m → ℚ) : Fin m → ℚ :=
  (List.foldl gjStep (A, b) (List.finRange m)).2

/-- `solvePolynomial` (src/solvepolynomial.js lines 33-61): collect the first
`k` points, build the power-basis matrix `A[row][p] = x_row ^ p` and right-hand
side `b[row] = y_row`, eliminate, and return `coeffs[0]`.  With no points
collected the JS expression `coeffs[0]` is `undefined`, modelled as `none`.
(When fewer than `k` points exist the JS rows are longer than the matrix is
tall; `gaussJordan` reads and writes only the leading square block, which is
what is modelled.) -/
def solvePolynomial (input : Input) : Option ℚ :=
  let pts := collectPoints input
  let A : Matrix (Fin pts.length) (Fin pts.length) ℚ :=
    Matrix.of fun r p => ((pts.get r).1 : ℚ) ^ (p : Nat)
  let b : Fin pts.length → ℚ := fun r => ((pts.get r).2 : ℚ)
  let coeffs := gaussJordan A b
  if h : 0 < pts.length then some (coeffs ⟨0, h⟩) else none

/-- An integer exactly representable as an IEEE-754 binary64 value: a mantissa
of at most 53 bits times a power of two.  Every JS number that is a
mathematical integer has this form. -/
def representable (z : ℤ) : Prop :=
  ∃ (mant : ℤ) (e : Nat), z = mant * 2 ^ e ∧ mant.natAbs < 2 ^ 53

/-- Modelled from the spec: the repository contains no digit-string renderer,
but the round-trip property of spec section 8 quantifies over one.  Render `v`
in base `b` with the standard 0-9/a-z alphabet, most significant digit first,
rendering zero as the single digit 0. -/
def render (v base : Nat) : String :=
  if v = 0 then "0"
  else String.mk ((Nat.digits base v).reverse.map (fun d => digitsStr.toList.getD d " ".front))

/-- Keys `1..n` that carry an entry in the input. -/
def presentKeys (input : Input) : List Nat :=
  (List.range' 1 input.n).filter (fun i => (input.entries i).isSome)

/-- Number of keys `1..n` that carry an entry (`totalPointsFound` when every
entry decodes). -/
def countPresent (input : Input) : Nat :=
  (presentKeys input).length

/-- The decoded value of the entry at key `i` (junk `0` when absent or
invalid); used to describe the extraction result. -/
def decodeAt (input : Input) (i : Nat) : Nat :=
  match input.entries i with
  | none => 0
  | some e =>
    match convertToDecimal e.value e.base with
    | .ok v => v
    | .error _ => 0

/-- The extraction result described as the spec does: the present keys in
ascending order, each paired with its decoded value. -/
def specPoints (input : Input) : List (Nat × Nat) :=
  (presentKeys input).map (fun i => (i, decodeAt input i))

/-- Every entry present under keys `1..n` decodes: its digit string is valid in
its base. -/
def entryOk (input : Input) (i : Nat) : Bool :=
  match input.entries i with
  | none => true
  | some e => (convertToDecimal e.value e.base).isOk

/-- All entries of the input decode successfully. -/
def allEntriesValid (input : Input) : Bool :=
  (List.range' 1 input.n).all (fun i => entryOk input i)

/-- The first test case hardcoded in src/answer.js (lines 122-128): `n = 4`,
`k = 3`, entries under keys 1, 2, 3 and 6. -/
def testCase1 : Input where
  n := 4
  k := 3
  entries := fun i =>
    if i = 1 then some ⟨10, "4"⟩
    else if i = 2 then some ⟨2, "111"⟩
    else if i = 3 then some ⟨10, "12"⟩
    else if i = 6 then some ⟨4, "213"⟩
    else none

/-- An input whose interpolating polynomial has the non-integer constant term
`3/2`: keys 1 and 3 with values 1 and 0, `k = 2` (the line through `(1,1)` and
`(3,0)` meets `x = 0` at `3/2`). -/
def mismatchInput : Input where
  n := 3
  k := 2
  entries := fun i =>
    if i = 1 then some ⟨10, "1"⟩
    else if i = 3 then some ⟨10, "0"⟩
    else none

/-- An input demanding `k = 7` points but carrying only 5 entries. -/
def insufficientInput : Input where
  n := 10
  k := 7
  entries := fun i =>
    if i = 1 then some ⟨10, "1"⟩
    else if i = 2 then some ⟨10, "2"⟩
    else if i = 3 then some ⟨10, "3"⟩
    else if i = 4 then some ⟨10, "4"⟩
    else if i = 5 then some ⟨10, "5"⟩
    else none

/-- An odd integer of magnitude at least `2 ^ 53` is not representable as a
binary64 double. -/
theorem not_representable_of_odd_of_big {z : ℤ} (hodd : ¬ (2:ℤ) ∣ z)
    (hbig : 2 ^ 53 ≤ z.natAbs) : ¬ representable z := by
  rintro ⟨mant, e, rfl, hm⟩
  rcases e with _ | e
  · simp only [pow_zero, mul_one] at hbig
    omega
  · exact hodd ⟨mant * 2 ^ e, by ring⟩

/-- Claim C1 (code bug).  In exact arithmetic the Lagrange engine does recover
the constant term: `3` on the pinned scenario, and `9007199254740987` on three
points of the polynomial `f(x) = x + 9007199254740987`.  But the product
`3 * 9007199254740989` that the code must form for the second input (`y2`
times the basis value `-3`, up to sign) is an odd integer above `2 ^ 53` and
hence not representable as a binary64 double, so the JS floating computation
cannot follow this exact path: it rounds the product and returns
`9007199254740986`. -/
theorem lagrangeInterpolation_exact_values :
    lagrangeInterpolation [(1, 4), (2, 7), (3, 12)] 3 = 3 ∧
    lagrangeInterpolation
      [(1, 9007199254740988), (2, 9007199254740989), (3, 9007199254740990)] 3 =
      9007199254740987 ∧
    ¬ representable (3 * 9007199254740989) :=
  ⟨by with_unfolding_all decide, by with_unfolding_all decide,
    not_representable_of_odd_of_big (by decide)
      (by norm_num [Int.natAbs_ofNat])⟩

/-- Claim C2 (code bug).  The exact accumulation semantics gives the claimed
values, including `2 ^ 53 + 1 = 9007199254740993` for a 54-bit binary string;
that integer is odd and above `2 ^ 53`, hence not representable as a binary64
double, so the JS code (which accumulates in doubles) cannot return it — it
returns `9007199254740992` instead. -/
theorem convertToDecimal_exact_values :
    convertToDecimal "111" 2 = .ok 7 ∧
    convertToDecimal "213" 4 = .ok 39 ∧
    convertToDecimal "100000000000000000000000000000000000000000000000000001" 2 =
      .ok 9007199254740993 ∧
    ¬ representable 9007199254740993 :=
  ⟨rfl, rfl, rfl,
    not_representable_of_odd_of_big (by decide) (by norm_num [Int.natAbs_ofNat])⟩

/-- Claim C4 (code bug).  On two points with the same abscissa the code raises
nothing: `lagrangeInterpolation` contains no duplicate check and no `throw`;
it divides by zero and still returns a value.  (In this exact model the
division by zero yields `0` and the function returns the number `0`; the JS
code returns the non-finite double `-Infinity` from the same input.  Either
way the caller receives a value, never a `DuplicateAbscissa` error.) -/
theorem lagrangeInterpolation_no_error_on_duplicate_x :
    lagrangeInterpolation [(1, 4), (1, 5)] 2 = 0 := by
  with_unfolding_all decide

/-- Claim C9 counterexample: on the empty string `convertToDecimal` returns
the number `0` (the accumulation loop body never runs); it does not fail. -/
theorem convertToDecimal_empty_returns_zero :
    convertToDecimal "" 10 = .ok 0 := rfl

/-- Claim C9 amended: applying `convertToDecimal` to the empty string with any
base in `[2, 36]` returns `0` rather than an error. -/
theorem convertToDecimal_empty_ok_zero (b : Nat) (h2 : 2 ≤ b) (h36 : b ≤ 36) :
    convertToDecimal "" b = .ok 0 := rfl

/-- Witness for `convertToDecimal_empty_ok_zero` at base 36. -/
theorem convertToDecimal_empty_ok_zero_witness :
    2 ≤ 36 ∧ 36 ≤ 36 ∧ convertToDecimal "" 36 = .ok 0 :=
  ⟨by decide, by decide, convertToDecimal_empty_ok_zero 36 (by decide) (by decide)⟩

/-- On a suffix whose entries all decode, the parse loop appends exactly the
present keys paired with their decoded values, in order. -/
theorem parseGo_eq (input : Input) :
    ∀ (l : List Nat) (acc : List (Nat × Nat)),
      (∀ i ∈ l, entryOk input i = true) →
      parseGo input l acc =
        .ok (acc ++ (l.filter (fun i => (input.entries i).isSome)).map
          (fun i => (i, decodeAt input i)))
  | [], acc, _ => by simp [parseGo]
  | i :: rest, acc, hval => by
    have hi : entryOk input i = true := hval i (by simp)
    have hrest : ∀ j ∈ rest, entryOk input j = true := fun j hj => hval j (by simp [hj])
    cases he : input.entries i with
    | none =>
      simp only [parseGo, he, List.filter_cons, he, Option.isSome_none]
      simpa using parseGo_eq input rest acc hrest
    | some e =>
      cases hc : convertToDecimal e.value e.base with
      | error err =>
        simp [entryOk, he, hc, Except.isOk, Except.toBool] at hi
      | ok v =>
        have hdec : decodeAt input i = v := by simp [decodeAt, he, hc]
        simp only [parseGo, he, hc, List.filter_cons, Option.isSome_some]
        rw [parseGo_eq input rest (acc ++ [(i, v)]) hrest]
        simp [hdec]

/-- On an input whose entries all decode, `parseTestCase` produces exactly the
ascending present keys paired with their decoded values. -/
theorem parsePoints_eq_specPoints (input : Input) (hval : allEntriesValid input = true) :
    parsePoints input = .ok (specPoints input) := by
  have h : ∀ i ∈ List.range' 1 input.n, entryOk input i = true := by
    simpa [allEntriesValid, List.all_eq_true] using hval
  simpa [specPoints, presentKeys] using parseGo_eq input (List.range' 1 input.n) [] h

/-- The number of points `parseTestCase` finds is the number of present keys. -/
theorem specPoints_length (input : Input) :
    (specPoints input).length = countPresent input := by
  simp [specPoints, countPresent]

/-- Claim C5: on an input whose present entries all decode but number fewer
than `k`, the solver fails with the insufficient-points error reporting
`needed = k` and `found` = the number of points present, and no result is
returned. -/
theorem solveShamir_insufficient_points (input : Input)
    (hval : allEntriesValid input = true)
    (hlt : countPresent input < input.k) :
    solveShamirSecretSharing input =
      .error (.insufficientPoints input.k (countPresent input)) := by
  unfold solveShamirSecretSharing
  rw [parsePoints_eq_specPoints input hval]
  simp [specPoints_length, hlt]

/-- Witness for `solveShamir_insufficient_points`: `k = 7` with 5 valid keyed
entries yields the error with `needed = 7`, `found = 5`. -/
theorem solveShamir_insufficient_points_witness :
    solveShamirSecretSharing insufficientInput = .error (.insufficientPoints 7 5) :=
  solveShamir_insufficient_points insufficientInput (by rfl) (by decide)

/-- A successful run of the conversion loop certifies every character it
consumed. -/
theorem convGo_all_valid (b : Nat) :
    ∀ (l : List Char) (r v : Nat), convGo b l r = .ok v →
      ∀ c ∈ l, validDigit c b = true
  | [], _, _, _ => by simp
  | c :: cs, r, v, h => by
    intro x hx
    cases hd : digitIndex c with
    | none => simp [convGo, hd] at h
    | some d =>
      by_cases hb : b ≤ d
      · simp [convGo, hd, hb] at h
      · simp only [convGo, hd, if_pos hb, if_neg hb] at h
        rcases List.mem_cons.1 hx with rfl | hxs
        · simp [validDigit, hd]
          omega
        · exact convGo_all_valid b cs (r * b + d) v h x hxs

/-- On all-valid digit strings the conversion loop is the plain positional
accumulation fold. -/
theorem convGo_foldl (b : Nat) :
    ∀ (l : List Char) (r : Nat), (∀ c ∈ l, validDigit c b = true) →
      convGo b l r =
        .ok (List.foldl (fun a c => a * b + (digitIndex c).getD 0) r l)
  | [], r, _ => by simp [convGo]
  | c :: cs, r, hval => by
    have hc : validDigit c b = true := hval c (by simp)
    cases hd : digitIndex c with
    | none => simp [validDigit, hd] at hc
    | some d =>
      have hdb : ¬ b ≤ d := by
        simp only [validDigit, hd, decide_eq_true_eq] at hc
        omega
      simp only [convGo, hd, if_neg hdb, List.foldl_cons, Option.getD_some]
      exact convGo_foldl b cs (r * b + d) (fun x hx => hval x (by simp [hx]))

/-- Where `convertToDecimal` succeeds, JS `parseInt` (as `parseValue` models
it) returns the same value. -/
theorem parseValue_eq_of_ok {e : Entry} {v : Nat}
    (h : convertToDecimal e.value e.base = .ok v) :
    parseValue e.base e.value = v := by
  have hall : ∀ c ∈ e.value.toList, validDigit c e.base = true :=
    convGo_all_valid e.base e.value.toList 0 v h
  have htake : e.value.toList.takeWhile (fun c => validDigit c e.base) = e.value.toList :=
    List.takeWhile_eq_self_iff.2 hall
  have hfold := convGo_foldl e.base e.value.toList 0 hall
  rw [convertToDecimal, hfold] at h
  unfold parseValue
  rw [htake]
  exact Except.ok.inj h

/-- On a suffix whose entries all decode, the collection loop of
`solvePolynomial` appends the present keys paired with their decoded values,
truncated to the `k`-point budget left. -/
theorem collectGo_eq (input : Input) :
    ∀ (l : List Nat) (acc : List (Nat × Nat)),
      (∀ i ∈ l, entryOk input i = true) →
      collectGo input l acc =
        acc ++ ((l.filter (fun i => (input.entries i).isSome)).map
          (fun i => (i, decodeAt input i))).take (input.k - acc.length)
  | [], acc, _ => by simp [collectGo]
  | i :: rest, acc, hval => by
    have hi : entryOk input i = true := hval i (by simp)
    have hrest : ∀ j ∈ rest, entryOk input j = true := fun j hj => hval j (by simp [hj])
    by_cases hk : input.k ≤ acc.length
    · have hz : input.k - acc.length = 0 := by omega
      simp [collectGo, hk, hz]
    · cases he : input.entries i with
      | none =>
        simp only [collectGo, if_neg hk, he, List.filter_cons, Option.isSome_none]
        simpa using collectGo_eq input rest acc hrest
      | some e =>
        cases hc : convertToDecimal e.value e.base with
        | error err => simp [entryOk, he, hc, Except.isOk, Except.toBool] at hi
        | ok v =>
          have hpv : parseValue e.base e.value = v := parseValue_eq_of_ok hc
          have hdec : decodeAt input i = v := by simp [decodeAt, he, hc]
          have hsucc : input.k - acc.length = (input.k - (acc.length + 1)) + 1 := by omega
          simp only [collectGo, if_neg hk, he, hpv, List.filter_cons, Option.isSome_some]
          rw [collectGo_eq input rest (acc ++ [(i, v)]) hrest]
          simp [hdec, hsucc, List.take_succ_cons]

/-- On an input whose entries all decode, `solvePolynomial` collects exactly
the first `k` points `parseTestCase` finds. -/
theorem collectPoints_eq (input : Input) (hval : allEntriesValid input = true) :
    collectPoints input = (specPoints input).take input.k := by
  have h : ∀ i ∈ List.range' 1 input.n, entryOk input i = true := by
    simpa [allEntriesValid, List.all_eq_true] using hval
  simpa [specPoints, presentKeys] using collectGo_eq input (List.range' 1 input.n) [] h

/-- Claim C6: point extraction walks candidate keys `1..n` in ascending
order, pairing each present key (the x coordinate) with its decoded value; the
Lagrange solver then uses exactly the first `k` points so collected, and the
linear-system solver collects exactly those same first `k` points. -/
theorem extraction_first_k_ascending (input : Input)
    (hval : allEntriesValid input = true) :
    parsePoints input = .ok (specPoints input) ∧
    collectPoints input = (specPoints input).take input.k ∧
    (input.k ≤ countPresent input →
      solveShamirSecretSharing input =
        .ok (jsRound (lagrangeSum (toQPoints ((specPoints input).take input.k))))) := by
  refine ⟨parsePoints_eq_specPoints input hval, collectPoints_eq input hval, fun hk => ?_⟩
  unfold solveShamirSecretSharing
  rw [parsePoints_eq_specPoints input hval]
  have hnlt : ¬ (specPoints input).length < input.k := by
    rw [specPoints_length]; omega
  simp only [if_neg hnlt, lagrangeInterpolation, toQPoints, List.map_take]

/-- Witness for `extraction_first_k_ascending` on `testCase1` (`n = 4`,
`k = 3`, keys 1, 2, 3, 6 present): the selected abscissae are 1, 2, 3 and
key 6 is ignored. -/
theorem extraction_first_k_ascending_witness :
    parsePoints testCase1 = .ok [(1, 4), (2, 7), (3, 12)] ∧
    collectPoints testCase1 = [(1, 4), (2, 7), (3, 12)] ∧
    ((specPoints testCase1).take 3).map Prod.fst = [1, 2, 3] := by
  refine ⟨?_, ?_, by exact rfl⟩
  · rw [(extraction_first_k_ascending testCase1 (by rfl)).1]; exact rfl
  · rw [(extraction_first_k_ascending testCase1 (by rfl)).2.1]; exact rfl

/-- A successful parse appends, after the accumulator, points whose keys form
a subsequence of the scanned keys and whose values are the decoded entries. -/
theorem parseGo_sublist (input : Input) :
    ∀ (l : List Nat) (acc out : List (Nat × Nat)), parseGo input l acc = .ok out →
      ∃ tl, out = acc ++ tl ∧ (tl.map Prod.fst).Sublist l ∧
        ∀ p ∈ tl, ∃ e, input.entries p.1 = some e ∧
          convertToDecimal e.value e.base = .ok p.2
  | [], acc, out, h => by
    simp only [parseGo] at h
    exact ⟨[], by simpa using (Except.ok.inj h).symm, by simp, by simp⟩
  | i :: rest, acc, out, h => by
    cases he : input.entries i with
    | none =>
      simp only [parseGo, he] at h
      obtain ⟨tl, hout, hsub, hmem⟩ := parseGo_sublist input rest acc out h
      exact ⟨tl, hout, hsub.cons i, hmem⟩
    | some e =>
      cases hc : convertToDecimal e.value e.base with
      | error err => simp [parseGo, he, hc] at h
      | ok v =>
        simp only [parseGo, he, hc] at h
        obtain ⟨tl, hout, hsub, hmem⟩ := parseGo_sublist input rest (acc ++ [(i, v)]) out h
        refine ⟨(i, v) :: tl, by simpa using hout, by simpa using hsub.cons₂ i, ?_⟩
        intro p hp
        rcases List.mem_cons.1 hp with rfl | hp2
        · exact ⟨e, he, hc⟩
        · exact hmem p hp2

/-- Claim C10: the points array produced by `parseTestCase` is ordered by
strictly increasing x coordinate, each element is a present key in `1..n`
paired with its decoded value, and consequently the first `k` points passed to
the interpolation step have pairwise distinct abscissae. -/
theorem parsePoints_strictly_increasing (input : Input) (pts : List (Nat × Nat))
    (hok : parsePoints input = .ok pts) :
    List.Pairwise (fun p q : Nat × Nat => p.1 < q.1) pts ∧
    (∀ p ∈ pts, 1 ≤ p.1 ∧ p.1 ≤ input.n ∧ ∃ e, input.entries p.1 = some e ∧
      convertToDecimal e.value e.base = .ok p.2) ∧
    List.Pairwise (fun a b : Nat => a ≠ b) ((pts.take input.k).map Prod.fst) := by
  obtain ⟨tl, hout, hsub, hmem⟩ := parseGo_sublist input _ _ _ hok
  simp only [List.nil_append] at hout
  subst hout
  have hpair : (pts.map Prod.fst).Pairwise (· < ·) :=
    List.Pairwise.sublist hsub (List.pairwise_lt_range' 1 input.n)
  have hlt : List.Pairwise (fun p q : Nat × Nat => p.1 < q.1) pts :=
    List.pairwise_map.1 hpair
  refine ⟨hlt, fun p hp => ?_, ?_⟩
  · have hx : p.1 ∈ List.range' 1 input.n :=
      hsub.subset (List.mem_map_of_mem Prod.fst hp)
    have hb := List.mem_range'_1.1 hx
    exact ⟨hb.1, by omega, hmem p hp⟩
  · have hptk : ((pts.take input.k).map Prod.fst).Pairwise (· < ·) := by
      rw [List.map_take]
      exact List.Pairwise.sublist (List.take_sublist _ _) hpair
    exact hptk.imp Nat.ne_of_lt

/-- Witness for `parsePoints_strictly_increasing` on `testCase1`. -/
theorem parsePoints_strictly_increasing_witness :
    List.Pairwise (fun p q : Nat × Nat => p.1 < q.1) [(1, 4), (2, 7), (3, 12)] ∧
    List.Pairwise (fun a b : Nat => a ≠ b)
      (([((1 : Nat), (4 : Nat)), (2, 7), (3, 12)].take 3).map Prod.fst) := by
  have h := parsePoints_strictly_increasing testCase1
    [(1, 4), (2, 7), (3, 12)] (by exact rfl)
  exact ⟨h.1, h.2.2⟩

/-- When the scanned characters contain an invalid digit, the conversion loop
fails, and the error carries an invalid character from the input and the base. -/
theorem convGo_error_of_invalid (b : Nat) :
    ∀ (l : List Char) (r : Nat), (∃ c ∈ l, validDigit c b = false) →
      ∃ c, convGo b l r = .error (.invalidDigit c b) ∧ c ∈ l ∧ validDigit c b = false
  | [], _, h => by simp at h
  | c :: cs, r, h => by
    cases hd : digitIndex c with
    | none =>
      exact ⟨c, by simp [convGo, hd], by simp, by simp [validDigit, hd]⟩
    | some d =>
      by_cases hb : b ≤ d
      · refine ⟨c, by simp [convGo, hd, hb], by simp, ?_⟩
        simp [validDigit, hd]
        omega
      · have hcv : validDigit c b = true := by
          simp [validDigit, hd]
          omega
        obtain ⟨x, hx, hxv⟩ := h
        rcases List.mem_cons.1 hx with rfl | hxs
        · rw [hcv] at hxv; cases hxv
        · obtain ⟨y, hy, hym, hyv⟩ :=
            convGo_error_of_invalid b cs (r * b + d) ⟨x, hxs, hxv⟩
          exact ⟨y, by simp [convGo, hd, hb, hy], by simp [hym], hyv⟩

/-- Any invalid-digit error produced by the conversion loop names a character
of the scanned list that is indeed invalid, and the base it was given. -/
theorem convGo_error_sound (b : Nat) :
    ∀ (l : List Char) (r : Nat) (c : Char) (bb : Nat),
      convGo b l r = .error (.invalidDigit c bb) →
      c ∈ l ∧ validDigit c b = false ∧ bb = b
  | [], _, _, _, h => by simp [convGo] at h
  | c0 :: cs, r, c, bb, h => by
    cases hd : digitIndex c0 with
    | none =>
      simp only [convGo, hd, Except.error.injEq, Err.invalidDigit.injEq] at h
      obtain ⟨rfl, rfl⟩ := h
      exact ⟨by simp, by simp [validDigit, hd], rfl⟩
    | some d =>
      by_cases hb : b ≤ d
      · simp only [convGo, hd, if_pos hb, Except.error.injEq, Err.invalidDigit.injEq] at h
        obtain ⟨rfl, rfl⟩ := h
        refine ⟨by simp, ?_, rfl⟩
        simp [validDigit, hd]
        omega
      · simp only [convGo, hd, if_neg hb] at h
        obtain ⟨hm, hv, rfl⟩ := convGo_error_sound b cs (r * b + d) c bb h
        exact ⟨by simp [hm], hv, rfl⟩

/-- Claim C7: `convertToDecimal` fails exactly when some character of the
value is invalid for the base (missing from the 0-9/a-z alphabet up to case,
or with digit value at least the base); the error identifies an offending
character and the base; on all-valid strings it never fails. -/
theorem convertToDecimal_error_iff_invalid (s : String) (b : Nat)
    (h2 : 2 ≤ b) (h36 : b ≤ 36) :
    ((∃ err, convertToDecimal s b = .error err) ↔
      ∃ c ∈ s.toList, validDigit c b = false) ∧
    (∀ c bb, convertToDecimal s b = .error (.invalidDigit c bb) →
      c ∈ s.toList ∧ validDigit c b = false ∧ bb = b) := by
  refine ⟨⟨?_, ?_⟩, fun c bb h => convGo_error_sound b s.toList 0 c bb h⟩
  · rintro ⟨err, herr⟩
    by_contra hval
    push_neg at hval
    have hall : ∀ c ∈ s.toList, validDigit c b = true := by
      intro c hc
      cases hb2 : validDigit c b with
      | true => rfl
      | false => exact absurd hb2 (hval c hc)
    rw [convertToDecimal, convGo_foldl b s.toList 0 hall] at herr
    cases herr
  · rintro ⟨c, hc, hcv⟩
    obtain ⟨x, hx, _, _⟩ := convGo_error_of_invalid b s.toList 0 ⟨c, hc, hcv⟩
    exact ⟨.invalidDigit x b, hx⟩

/-- Witness for `convertToDecimal_error_iff_invalid`: the letter z is invalid
in base 16, so conversion of the string 1z fails. -/
theorem convertToDecimal_error_iff_invalid_witness :
    ∃ err, convertToDecimal "1z" 16 = .error err :=
  (convertToDecimal_error_iff_invalid "1z" 16 (by decide) (by decide)).1.2
    ⟨'z', by decide, by rfl⟩

/-- Little-endian digits consumed most-significant-first by the positional
accumulation fold rebuild the original number. -/
theorem foldl_reverse_digits (b : Nat) :
    ∀ L : List Nat,
      List.foldl (fun a d => a * b + d) 0 L.reverse = Nat.ofDigits b L
  | [] => by simp [Nat.ofDigits]
  | d :: t => by
    rw [List.reverse_cons, List.foldl_append, foldl_reverse_digits b t,
      Nat.ofDigits_cons]
    simp [Nat.mul_comm]
    omega

/-- The alphabet character of each digit value below 36 maps back to it. -/
theorem digitIndex_alphabet :
    ∀ d, d < 36 → digitIndex (digitsStr.toList.getD d " ".front) = some d := by
  decide

/-- Claim C8 (code bug).  In exact arithmetic the round trip does hold:
rendering any `v` in any base `b` in `[2,36]` and converting the digit string
back yields exactly `v` (the renderer is modelled from the spec; the
repository has none).  But the JS converter accumulates in binary64 doubles,
and the value `2 ^ 53 + 1 = 9007199254740993` — whose base-2 rendering is a
54-character string — is odd and above `2 ^ 53`, hence not representable as a
double (second conjunct), so the real program cannot return it and its round
trip yields `9007199254740992` instead. -/
theorem convertToDecimal_render_roundtrip :
    (∀ v b : Nat, 2 ≤ b → b ≤ 36 → convertToDecimal (render v b) b = .ok v) ∧
    ¬ representable 9007199254740993 := by
  refine ⟨fun v b h2 h36 => ?_, ?_⟩
  case refine_2 =>
    exact not_representable_of_odd_of_big (by decide) (by norm_num [Int.natAbs_ofNat])
  by_cases hv : v = 0
  · subst hv
    have h0 : digitIndex '0' = some 0 := by decide
    simp [render, convertToDecimal, String.toList, convGo, h0]
    omega
  · have hdig : ∀ d ∈ Nat.digits b v, d < b := fun d hd =>
      Nat.digits_lt_base (by omega) hd
    have hchars : ∀ c ∈ (Nat.digits b v).reverse.map
        (fun d => digitsStr.toList.getD d " ".front), validDigit c b = true := by
      intro c hc
      obtain ⟨d, hd, rfl⟩ := List.mem_map.1 hc
      have hdb : d < b := hdig d (List.mem_reverse.1 hd)
      unfold validDigit
      rw [digitIndex_alphabet d (by omega)]
      simpa using hdb
    have htl : (render v b).toList =
        (Nat.digits b v).reverse.map (fun d => digitsStr.toList.getD d " ".front) := by
      simp [render, hv]
    rw [convertToDecimal, htl, convGo_foldl b _ 0 hchars, List.foldl_map]
    have hfold : List.foldl
        (fun (a : Nat) d =>
          a * b + ((digitIndex (digitsStr.toList.getD d " ".front)).getD 0))
        0 (Nat.digits b v).reverse =
        List.foldl (fun a d => a * b + d) 0 (Nat.digits b v).reverse := by
      apply List.foldl_ext
      intro a d hd
      have hdb : d < b := hdig d (List.mem_reverse.1 hd)
      rw [digitIndex_alphabet d (by omega), Option.getD_some]
    rw [hfold, foldl_reverse_digits b (Nat.digits b v), Nat.ofDigits_digits]

/-- Witness for `convertToDecimal_render_roundtrip`, at the failing input
itself: in the exact model the round trip at `v = 9007199254740993`, `b = 2`
returns `v` — the value the double-based program cannot produce. -/
theorem convertToDecimal_render_roundtrip_witness :
    convertToDecimal (render 9007199254740993 2) 2 = .ok 9007199254740993 :=
  convertToDecimal_render_roundtrip.1 9007199254740993 2 (by decide) (by decide)

/-- Claim C3 (code bug): the two solvers do not compute the same secret.  On
`mismatchInput` (keys 1 and 3 with values 1 and 0, `k = 2`) the interpolated
constant term is `3/2`; the Lagrange-form solver applies `Math.round` and
returns `2` while the linear-system solver returns `3/2` unrounded.  Every
arithmetic operation both JS solvers perform on this input is exact in
binary64 (all intermediate values are small dyadic rationals), so the exact
model evaluated here coincides with the real program. -/
theorem solvers_disagree_on_noninteger_secret :
    solveShamirSecretSharing mismatchInput = .ok 2 ∧
    solvePolynomial mismatchInput = some (3 / 2) ∧ ((2 : ℚ) ≠ 3 / 2) :=
  ⟨by with_unfolding_all rfl, by with_unfolding_all rfl, by norm_num⟩

end ShamirSolver
